import Mathlib

/-!
A verification development for the core of the carpal asynchronous-programming
library (promise/future cells, continuation tasks, the bounded single-producer
single-consumer stream queue, and the coroutine scheduling glue).

The C++ sources are shallowly embedded:
  * `std::exception_ptr` values are represented by numeric identities (`Err`);
    forwarding an exception copies the identity, so a forwarded error compares
    equal to the original.
  * a user-supplied C++ function that may throw is embedded as a Lean function
    into `Except Err`, where `Except.error e` models a throw of exception `e`.
  * the completed content of a `PromiseFuturePair` cell is an `Outcome`.
  * callbacks and coroutine handles are represented by numeric identities; a
    "ghost" component of a result records which callbacks a call ran inline,
    letting theorems speak about when and where user code is invoked.
Each definition carries a comment naming the C++ entity it embeds.
-/

namespace Carpal

/-- Identity of a `std::exception_ptr`. -/
abbrev Err := Nat

/-- The completed content of a promise-future cell: a value (state
`completed_normally`) or a stored exception (state `exception`). -/
inductive Outcome (T : Type) where
  | ok (v : T)
  | err (e : Err)
  deriving DecidableEq

/-- `PromiseFuturePair<T>::computeAndSet` (Future.h): invoke the user function and
set its result as the cell value; if the function throws, capture the exception
as the cell error. -/
def computeAndSet {T R : Type} (func : T → Except Err R) (arg : T) : Outcome R :=
  match func arg with
  | Except.ok r => Outcome.ok r
  | Except.error e => Outcome.err e

/-- `carpal_private::ContinuationTaskFromOneFuture::onFutureCompleted` (Future.h),
the completion callback behind `Future<T>::then`.  Given the antecedent's outcome:
if it completed normally, the executor runs `computeAndSet(m_func, m_future.get())`;
otherwise the task's cell is completed with `setException(m_future.getException())`
and the user function is not run.  The boolean ghost component records whether the
user function was invoked. -/
def ContinuationTaskFromOneFuture.onFutureCompleted {T R : Type}
    (func : T → Except Err R) (antecedent : Outcome T) : Outcome R × Bool :=
  match antecedent with
  | Outcome.ok v => (computeAndSet func v, true)
  | Outcome.err e => (Outcome.err e, false)

/-- `carpal_private::ContinuationTaskCatchAll::onFutureCompleted` (Future.h), the
completion callback behind `Future<T>::thenCatchAll`.  On a normally completed
antecedent the value is forwarded (`setFromOtherFutureMove`) without running the
handler; on a failed antecedent the handler runs on the stored exception via
`computeAndSet`.  The boolean ghost component records whether the handler ran. -/
def ContinuationTaskCatchAll.onFutureCompleted {T : Type}
    (func : Err → Except Err T) (antecedent : Outcome T) : Outcome T × Bool :=
  match antecedent with
  | Outcome.ok v => (Outcome.ok v, false)
  | Outcome.err e => (computeAndSet func e, true)

/-- Claim C1: for every future F and user function f, if F fails with error e then
the future returned by `then(_, f)` fails with the same error e and f is never
invoked; the future returned by `catch_all(h)` completes normally with `h(e)`;
and if F completes normally with value v, `catch_all` forwards v and the handler
is never invoked. -/
theorem then_catchAll_error_propagation {T R : Type}
    (f : T → Except Err R) (h : Err → T) (g : Err → Except Err T) (e : Err) (v : T) :
    ContinuationTaskFromOneFuture.onFutureCompleted f (Outcome.err e) = (Outcome.err e, false)
    ∧ ContinuationTaskCatchAll.onFutureCompleted (fun x => Except.ok (h x)) (Outcome.err e)
        = (Outcome.ok (h e), true)
    ∧ ContinuationTaskCatchAll.onFutureCompleted g (Outcome.ok v) = (Outcome.ok v, false) :=
  ⟨rfl, rfl, rfl⟩

/-- `carpal_private::ContinuationTaskAsyncLoop::onFutureCompleted` (Future.h,
FutureHelpers.h), iterated: each fuel unit is one invocation of the completion
callback on a normally completed iteration future holding value `v`.  The
callback evaluates `m_cond(v)`; if true it starts `m_body(v)` and re-registers
itself on the returned future (here: the next iteration value is `body v`,
matching an iteration future that completes normally), otherwise it completes
the loop cell with `v` via `setFromOtherFutureMove`.  The second component is a
ghost counter of body invocations; `(none, _)` means the fuel ran out with the
loop still in progress. -/
def ContinuationTaskAsyncLoop.run {T : Type} (cond : T → Bool) (body : T → T) :
    Nat → T → Option T × Nat
  | 0, _ => (none, 0)
  | fuel + 1, v =>
    if cond v then
      let r := ContinuationTaskAsyncLoop.run cond body fuel (body v)
      (r.1, r.2 + 1)
    else (some v, 0)

theorem ContinuationTaskAsyncLoop.run_succ {T : Type}
    (cond : T → Bool) (body : T → T) (fuel : Nat) (v : T) :
    ContinuationTaskAsyncLoop.run cond body (fuel + 1) v =
      if cond v then
        ((ContinuationTaskAsyncLoop.run cond body fuel (body v)).1,
         (ContinuationTaskAsyncLoop.run cond body fuel (body v)).2 + 1)
      else (some v, 0) := rfl

theorem ContinuationTaskAsyncLoop.run_of_cond_false {T : Type}
    (cond : T → Bool) (body : T → T) (v : T) (hc : cond v = false) (fuel : Nat) :
    ContinuationTaskAsyncLoop.run cond body (fuel + 1) v = (some v, 0) := by
  simp [ContinuationTaskAsyncLoop.run, hc]

theorem ContinuationTaskAsyncLoop.run_some {T : Type}
    (cond : T → Bool) (body : T → T) :
    ∀ (fuel : Nat) (v : T) (r : T) (k : Nat),
      ContinuationTaskAsyncLoop.run cond body fuel v = (some r, k) →
      ∃ n, cond (body^[n] v) = false ∧ (∀ m, m < n → cond (body^[m] v) = true)
        ∧ r = body^[n] v ∧ k = n := by
  intro fuel
  induction fuel with
  | zero =>
    intro v r k hrun
    simp [ContinuationTaskAsyncLoop.run] at hrun
  | succ fuel ih =>
    intro v r k hrun
    by_cases hc : cond v = true
    · simp [ContinuationTaskAsyncLoop.run, hc] at hrun
      obtain ⟨hrun1, hrun2⟩ := hrun
      obtain ⟨k1, hk1⟩ : ∃ k1, (ContinuationTaskAsyncLoop.run cond body fuel (body v)).2 = k1 :=
        ⟨_, rfl⟩
      have hpair : ContinuationTaskAsyncLoop.run cond body fuel (body v) = (some r, k1) := by
        rw [← hrun1, ← hk1]
      obtain ⟨n, hn1, hn2, hn3, hn4⟩ := ih (body v) r k1 hpair
      refine ⟨n + 1, ?_, ?_, ?_, ?_⟩
      · rwa [Function.iterate_succ_apply]
      · intro m hm
        cases m with
        | zero => simpa using hc
        | succ m =>
          rw [Function.iterate_succ_apply]
          exact hn2 m (by omega)
      · rwa [Function.iterate_succ_apply]
      · omega
    · have hc2 : cond v = false := by
        cases hcv : cond v
        · rfl
        · exact absurd hcv hc
      rw [ContinuationTaskAsyncLoop.run_of_cond_false cond body v hc2 fuel] at hrun
      have h1 : some v = some r := congrArg Prod.fst hrun
      have h2 : (0 : Nat) = k := congrArg Prod.snd hrun
      refine ⟨0, by simpa using hc2, by omega, ?_, by omega⟩
      simpa using h1.symm

theorem ContinuationTaskAsyncLoop.run_terminates {T : Type}
    (cond : T → Bool) (body : T → T) :
    ∀ (n : Nat) (v : T), cond (body^[n] v) = false →
      ∃ r k, ContinuationTaskAsyncLoop.run cond body (n + 1) v = (some r, k) := by
  intro n
  induction n with
  | zero =>
    intro v hv
    simp at hv
    exact ⟨v, 0, ContinuationTaskAsyncLoop.run_of_cond_false cond body v hv 0⟩
  | succ n ih =>
    intro v hv
    by_cases hc : cond v = true
    · rw [Function.iterate_succ_apply] at hv
      obtain ⟨r, k, hr⟩ := ih (body v) hv
      refine ⟨r, k + 1, ?_⟩
      rw [ContinuationTaskAsyncLoop.run_succ, hc, hr]
      simp
    · have hc2 : cond v = false := by
        cases hcv : cond v
        · rfl
        · exact absurd hcv hc
      exact ⟨v, 0, ContinuationTaskAsyncLoop.run_of_cond_false cond body v hc2 (n + 1)⟩

/-- Claim C5: the future returned by `then_async_loop(cond, body)` (antecedent
value v0, each iteration future completing normally) terminates iff the sequence
v0, body v0, body (body v0), ... reaches some vn with `cond vn = false`; in that
case it completes with the first such vn, having invoked the body exactly n
times; and if `cond v0` is already false the result is v0 with the body never
invoked. -/
theorem thenAsyncLoop_termination {T : Type} (cond : T → Bool) (body : T → T) (v0 : T) :
    ((∃ fuel r k, ContinuationTaskAsyncLoop.run cond body fuel v0 = (some r, k))
      ↔ (∃ n, cond (body^[n] v0) = false))
    ∧ (∀ fuel r k, ContinuationTaskAsyncLoop.run cond body fuel v0 = (some r, k) →
        ∃ n, cond (body^[n] v0) = false ∧ (∀ m, m < n → cond (body^[m] v0) = true)
          ∧ r = body^[n] v0 ∧ k = n)
    ∧ (cond v0 = false → ∀ fuel,
        ContinuationTaskAsyncLoop.run cond body (fuel + 1) v0 = (some v0, 0)) := by
  refine ⟨⟨?_, ?_⟩, ?_, ?_⟩
  · rintro ⟨fuel, r, k, hrun⟩
    obtain ⟨n, hn, -, -, -⟩ := ContinuationTaskAsyncLoop.run_some cond body fuel v0 r k hrun
    exact ⟨n, hn⟩
  · rintro ⟨n, hn⟩
    obtain ⟨r, k, hr⟩ := ContinuationTaskAsyncLoop.run_terminates cond body n v0 hn
    exact ⟨n + 1, r, k, hr⟩
  · exact fun fuel => ContinuationTaskAsyncLoop.run_some cond body fuel v0
  · intro h0 fuel
    exact ContinuationTaskAsyncLoop.run_of_cond_false cond body v0 h0 fuel

/-- Concrete instantiation of `thenAsyncLoop_termination`: counting 0,1,2,3 with
condition `v < 3` terminates with value 3 after 3 body invocations. -/
theorem thenAsyncLoop_termination_witness :
    ∃ n, (fun v => decide (v < 3)) ((fun v : Nat => v + 1)^[n] 0) = false :=
  (thenAsyncLoop_termination (fun v => decide (v < 3)) (fun v : Nat => v + 1) 0).1.mp
    ⟨4, 3, 3, by decide⟩

/-- Result of one invocation of `ContinuationTaskAsyncLoop::onFutureCompleted` when
the user-supplied cond and body may throw: either the callback registered itself on
the next iteration future (which will complete with `next`), or it completed the
loop's output cell, or an exception escaped the callback uncaught. -/
inductive AsyncLoopCallbackResult (T : Type) where
  | iterate (next : Outcome T)
  | complete (o : Outcome T)
  | escaped (e : Err)
  deriving DecidableEq

/-- `ContinuationTaskAsyncLoop::onFutureCompleted` (Future.h, FutureHelpers.h) with
throwing user functions made explicit.  The source wraps neither `m_cond(...)` nor
`m_body(...)` in a try/catch: a throw from either propagates out of the callback
(`Except.error` short-circuits to `escaped`).  A failed iteration future is captured
via `setException(m_currentFuture.getException())`. -/
def ContinuationTaskAsyncLoop.onFutureCompletedExc {T : Type}
    (cond : T → Except Err Bool) (body : T → Except Err (Outcome T))
    (current : Outcome T) : AsyncLoopCallbackResult T :=
  match current with
  | Outcome.err e => AsyncLoopCallbackResult.complete (Outcome.err e)
  | Outcome.ok v =>
    match cond v with
    | Except.error e => AsyncLoopCallbackResult.escaped e
    | Except.ok true =>
      match body v with
      | Except.error e => AsyncLoopCallbackResult.escaped e
      | Except.ok next => AsyncLoopCallbackResult.iterate next
    | Except.ok false => AsyncLoopCallbackResult.complete (Outcome.ok v)

/-- Overall fate of a `then_async_loop` execution: the output cell was completed, or
an exception escaped the completion callback (so the output cell is still pending),
or the fuel ran out with the loop still iterating. -/
inductive LoopOutcome (T : Type) where
  | completed (o : Outcome T)
  | escaped (e : Err)
  | stillRunning
  deriving DecidableEq

/-- Iterate `onFutureCompletedExc` over successive iteration futures. -/
def ContinuationTaskAsyncLoop.runExc {T : Type}
    (cond : T → Except Err Bool) (body : T → Except Err (Outcome T)) :
    Nat → Outcome T → LoopOutcome T
  | 0, _ => LoopOutcome.stillRunning
  | fuel + 1, current =>
    match ContinuationTaskAsyncLoop.onFutureCompletedExc cond body current with
    | AsyncLoopCallbackResult.complete o => LoopOutcome.completed o
    | AsyncLoopCallbackResult.escaped e => LoopOutcome.escaped e
    | AsyncLoopCallbackResult.iterate next =>
        ContinuationTaskAsyncLoop.runExc cond body fuel next

/-- Claim C6 (refuted by the code): with antecedent value 10, condition `v < 20` and
a body that throws exception 42, the exception escapes the completion callback
uncaught, and for no amount of fuel does the loop's output future complete with
error 42 — contradicting the claim (and the documentation of `thenAsyncLoop`) that
a throw from the body is captured into the output cell.  A failed iteration future,
in contrast, is captured (third conjunct). -/
theorem thenAsyncLoop_body_throw_escapes :
    ContinuationTaskAsyncLoop.runExc (fun v => Except.ok (decide (v < 20)))
      (fun _ => Except.error 42) 1 (Outcome.ok 10) = LoopOutcome.escaped 42
    ∧ (∀ fuel, ContinuationTaskAsyncLoop.runExc (fun v => Except.ok (decide (v < 20)))
        (fun _ => Except.error 42) fuel (Outcome.ok 10)
          ≠ LoopOutcome.completed (Outcome.err 42))
    ∧ (∀ (cond : Nat → Except Err Bool) (body : Nat → Except Err (Outcome Nat)) (e : Err),
        ContinuationTaskAsyncLoop.onFutureCompletedExc cond body (Outcome.err e)
          = AsyncLoopCallbackResult.complete (Outcome.err e)) := by
  refine ⟨rfl, ?_, fun cond body e => rfl⟩
  intro fuel
  cases fuel with
  | zero => simp [ContinuationTaskAsyncLoop.runExc]
  | succ n =>
    simp [ContinuationTaskAsyncLoop.runExc, ContinuationTaskAsyncLoop.onFutureCompletedExc]

/-- Concrete instantiation of `thenAsyncLoop_body_throw_escapes` at one callback
invocation: the outcome is an escaped exception, not a completed cell. -/
theorem thenAsyncLoop_body_throw_escapes_witness :
    ContinuationTaskAsyncLoop.runExc (fun v => Except.ok (decide (v < 20)))
      (fun _ => Except.error 42) 1 (Outcome.ok 10)
      ≠ LoopOutcome.completed (Outcome.err 42) :=
  thenAsyncLoop_body_throw_escapes.2.1 1

/-- `PromiseFuturePairBase::State` (Future.h). -/
inductive State where
  | not_completed
  | completed_normally
  | exception
  deriving DecidableEq

/-- The fields of `PromiseFuturePairBase` relevant to callback handling: `m_state`
and `m_continuations`.  The source stores the chain as one composed closure built by
`m_continuations = [old, f]() { old(); f(); }`; that nesting is exactly a list of
callbacks in registration order, with the empty list standing for `nullptr`. -/
structure PromiseFuturePairBase where
  state : State
  continuations : List Nat
  deriving DecidableEq

/-- `PromiseFuturePairBase::addSynchronousCallback` (Future.cpp:24-37).  If the cell
is already non-Pending, unlock and run the callback inline (second component: the
callbacks this call ran on the registering thread, before returning); otherwise
append it to the chain. -/
def PromiseFuturePairBase.addSynchronousCallback (c : PromiseFuturePairBase) (cb : Nat) :
    PromiseFuturePairBase × List Nat :=
  if c.state ≠ State.not_completed then (c, [cb])
  else ({ c with continuations := c.continuations ++ [cb] }, [])

/-- `PromiseFuturePairBase::notify` (Future.cpp:13-22).  Move the chain out, set the
state, unlock, and run the chain (second component: the callbacks the notifying
thread runs, in order).  There is no check that the cell was still Pending. -/
def PromiseFuturePairBase.notify (c : PromiseFuturePairBase) (st : State) :
    PromiseFuturePairBase × List Nat :=
  ({ state := st, continuations := [] }, c.continuations)

/-- An operation performed on one cell: registering a callback, or completing the
cell (`notify` via `set` / `setException`). -/
inductive CellOp where
  | register (cb : Nat)
  | complete (st : State)

/-- Which thread ran a callback: the thread that registered it (fast path), or the
thread that performed the state transition. -/
inductive RunThread where
  | registrar
  | notifier
  deriving DecidableEq

/-- Run a sequence of cell operations, collecting the log of executed callbacks in
execution order, each tagged with the thread that ran it. -/
def PromiseFuturePairBase.runOps :
    PromiseFuturePairBase → List CellOp → PromiseFuturePairBase × List (Nat × RunThread)
  | c, [] => (c, [])
  | c, CellOp.register cb :: rest =>
    let step := c.addSynchronousCallback cb
    let t := PromiseFuturePairBase.runOps step.1 rest
    (t.1, step.2.map (fun x => (x, RunThread.registrar)) ++ t.2)
  | c, CellOp.complete st :: rest =>
    let step := c.notify st
    let t := PromiseFuturePairBase.runOps step.1 rest
    (t.1, step.2.map (fun x => (x, RunThread.notifier)) ++ t.2)

theorem PromiseFuturePairBase.runOps_register_pending (rs : List Nat) :
    ∀ (conts : List Nat) (ops : List CellOp),
      PromiseFuturePairBase.runOps ⟨State.not_completed, conts⟩
          (List.map CellOp.register rs ++ ops)
        = PromiseFuturePairBase.runOps ⟨State.not_completed, conts ++ rs⟩ ops := by
  induction rs with
  | nil => intro conts ops; simp
  | cons cb rs ih =>
    intro conts ops
    have hstep : PromiseFuturePairBase.addSynchronousCallback ⟨State.not_completed, conts⟩ cb
        = (⟨State.not_completed, conts ++ [cb]⟩, []) := by
      simp [PromiseFuturePairBase.addSynchronousCallback]
    simp only [List.map_cons, List.cons_append, PromiseFuturePairBase.runOps, hstep,
      List.append_eq]
    rw [ih (conts ++ [cb]) ops]
    simp

theorem PromiseFuturePairBase.runOps_register_completed (rs : List Nat) :
    ∀ (c : PromiseFuturePairBase), c.state ≠ State.not_completed →
      PromiseFuturePairBase.runOps c (List.map CellOp.register rs)
        = (c, List.map (fun cb => (cb, RunThread.registrar)) rs) := by
  induction rs with
  | nil => intro c _; simp [PromiseFuturePairBase.runOps]
  | cons cb rs ih =>
    intro c hc
    have hstep : PromiseFuturePairBase.addSynchronousCallback c cb = (c, [cb]) := by
      simp [PromiseFuturePairBase.addSynchronousCallback, hc]
    simp only [List.map_cons, PromiseFuturePairBase.runOps, hstep]
    rw [ih c hc]
    simp

/-- Claim C2: on a fresh Pending cell, callbacks rs1 registered while Pending are
all executed exactly once, in registration order, by the thread that performs the
state transition; callbacks rs2 registered after the transition each run inline on
the registering thread; and (fast path, second conjunct) `addSynchronousCallback` on
any non-Pending cell runs the callback on the caller's thread before returning. -/
theorem addSynchronousCallback_ordering (st : State) (rs1 rs2 : List Nat)
    (hst : st ≠ State.not_completed) :
    (PromiseFuturePairBase.runOps ⟨State.not_completed, []⟩
        (List.map CellOp.register rs1
          ++ CellOp.complete st :: List.map CellOp.register rs2)).2
      = List.map (fun cb => (cb, RunThread.notifier)) rs1
        ++ List.map (fun cb => (cb, RunThread.registrar)) rs2
    ∧ ∀ (c : PromiseFuturePairBase) (cb : Nat), c.state ≠ State.not_completed →
        c.addSynchronousCallback cb = (c, [cb]) := by
  constructor
  · rw [PromiseFuturePairBase.runOps_register_pending rs1 []
      (CellOp.complete st :: List.map CellOp.register rs2)]
    have hnotify : PromiseFuturePairBase.notify ⟨State.not_completed, [] ++ rs1⟩ st
        = (⟨st, []⟩, rs1) := by
      simp [PromiseFuturePairBase.notify]
    simp only [PromiseFuturePairBase.runOps, hnotify]
    rw [PromiseFuturePairBase.runOps_register_completed rs2 ⟨st, []⟩ hst]
  · intro c cb hc
    simp [PromiseFuturePairBase.addSynchronousCallback, hc]

/-- Concrete instantiation of `addSynchronousCallback_ordering`: callbacks 1, 2
registered while pending run in order on the notifier; callback 3 registered after
completion runs on its registrar. -/
theorem addSynchronousCallback_ordering_witness :
    (PromiseFuturePairBase.runOps ⟨State.not_completed, []⟩
        (List.map CellOp.register [1, 2]
          ++ CellOp.complete State.completed_normally :: List.map CellOp.register [3])).2
      = [(1, RunThread.notifier), (2, RunThread.notifier), (3, RunThread.registrar)] := by
  have h := addSynchronousCallback_ordering State.completed_normally [1, 2] [3] (by decide)
  simpa using h.1

/-- `ContinuationTask::onFutureCompleted` (Future.h:551-558): one input-future
completion event performs `old = m_remaining.fetch_sub(1)` and enqueues the final
computation iff `old == 1`.  Returns the new counter and the fire decision. -/
def ContinuationTask.onFutureCompleted (remaining : Nat) : Nat × Bool :=
  (remaining - 1, remaining == 1)

/-- The fire decisions of the first `events` completion callbacks, starting from
counter value `remaining` (initially the number of input futures). -/
def ContinuationTask.fireLog (remaining : Nat) : Nat → List Bool
  | 0 => []
  | events + 1 =>
    (ContinuationTask.onFutureCompleted remaining).2 ::
      ContinuationTask.fireLog (ContinuationTask.onFutureCompleted remaining).1 events

/-- The `ff.get()...` argument evaluation inside `whenAll`'s `fwdFunc`
(Future.h:1153): each `get` returns the future's value or rethrows its stored
exception; the first failed future encountered short-circuits.  C++ leaves the
evaluation order of call arguments unspecified; the model fixes left-to-right, and
the theorem only claims that the reported error belongs to one of the failing
inputs. -/
def whenAllGetAll {T : Type} : List (Outcome T) → Except Err (List T)
  | [] => Except.ok []
  | Outcome.ok v :: rest => (whenAllGetAll rest).map (fun vs => v :: vs)
  | Outcome.err e :: _ => Except.error e

/-- `computeAndSetWithTuple(fwdFunc, m_futures)` (Future.h:159-166 with the
`fwdFunc` of Future.h:1153): evaluate the gets; on a rethrow, capture the exception
as the output cell's error; otherwise run the user function on the values.  The
ghost component counts invocations of the user function. -/
def ContinuationTask.computeAndSetWithTuple {T R : Type}
    (f : List T → R) (futures : List (Outcome T)) : Outcome R × Nat :=
  match whenAllGetAll futures with
  | Except.error e => (Outcome.err e, 0)
  | Except.ok vs => (Outcome.ok (f vs), 1)

/-- The values of a list of normally completed outcomes, in order. -/
def okValues {T : Type} : List (Outcome T) → List T :=
  List.filterMap (fun x => match x with
    | Outcome.ok v => some v
    | Outcome.err _ => none)

theorem ContinuationTask.fireLog_count :
    ∀ (j n : Nat), j ≤ n → 1 ≤ n →
      (ContinuationTask.fireLog n j).count true = if j = n then 1 else 0 := by
  intro j
  induction j with
  | zero =>
    intro n _ hn
    have : ¬(0 = n) := by omega
    simp [ContinuationTask.fireLog, this]
  | succ j ih =>
    intro n hjn hn
    by_cases h1 : n = 1
    · subst h1
      have hj : j = 0 := by omega
      subst hj
      simp [ContinuationTask.fireLog, ContinuationTask.onFutureCompleted]
    · have hfire : (n == 1) = false := by
        simp
        omega
      have hrec := ih (n - 1) (by omega) (by omega)
      simp only [ContinuationTask.fireLog, ContinuationTask.onFutureCompleted, hfire]
      rw [List.count_cons]
      rw [hrec]
      have hiff : (j + 1 = n) ↔ (j = n - 1) := by omega
      by_cases hj : j + 1 = n
      · have hn1 : n - 1 + 1 = n := by omega
        simp [hj, hiff.mp hj, hn1]
      · have : ¬(j = n - 1) := fun h => hj (hiff.mpr h)
        simp [hj, this]

theorem whenAllGetAll_error_mem {T : Type} :
    ∀ (futures : List (Outcome T)) (e : Err),
      whenAllGetAll futures = Except.error e → Outcome.err e ∈ futures := by
  intro futures
  induction futures with
  | nil => intro e h; simp [whenAllGetAll] at h
  | cons x rest ih =>
    intro e h
    cases x with
    | ok v =>
      simp only [whenAllGetAll] at h
      cases hr : whenAllGetAll rest with
      | ok vs => rw [hr] at h; simp [Except.map] at h
      | error e2 =>
        rw [hr] at h
        simp [Except.map] at h
        subst h
        exact List.mem_cons_of_mem _ (ih e2 hr)
    | err e2 =>
      simp only [whenAllGetAll] at h
      have : e2 = e := by
        cases h
        rfl
      subst this
      exact List.mem_cons_self _ _

theorem whenAllGetAll_all_ok {T : Type} :
    ∀ (futures : List (Outcome T)), (∀ x ∈ futures, ∃ v, x = Outcome.ok v) →
      whenAllGetAll futures = Except.ok (okValues futures) := by
  intro futures
  induction futures with
  | nil => intro _; simp [whenAllGetAll, okValues]
  | cons x rest ih =>
    intro hall
    obtain ⟨v, hv⟩ := hall x (List.mem_cons_self _ _)
    subst hv
    have hrest := ih (fun y hy => hall y (List.mem_cons_of_mem _ hy))
    simp [whenAllGetAll, hrest, okValues, Except.map]

theorem whenAllGetAll_some_err {T : Type} :
    ∀ (futures : List (Outcome T)) (e0 : Err), Outcome.err e0 ∈ futures →
      ∃ e, whenAllGetAll futures = Except.error e := by
  intro futures
  induction futures with
  | nil => intro e0 h; simp at h
  | cons x rest ih =>
    intro e0 h
    cases x with
    | ok v =>
      have hmem : Outcome.err e0 ∈ rest := by
        cases h with
        | tail _ hm => exact hm
      obtain ⟨e, he⟩ := ih e0 hmem
      exact ⟨e, by simp [whenAllGetAll, he, Except.map]⟩
    | err e2 => exact ⟨e2, by simp [whenAllGetAll]⟩

/-- Claim C7: for `when_all(f, fut1..futn)` (n ≥ 1), the final computation is
enqueued exactly at the completion event of the last input future — among the first
j completion events it fires zero times for j < n and exactly once at j = n — so the
result completes only after every input has completed.  If some input failed, the
result is failed with the error of one of the failing inputs and f is not invoked;
if all inputs completed normally, f is invoked exactly once on the input values and
the result carries f's value. -/
theorem whenAll_completion {T R : Type} (f : List T → R) (futures : List (Outcome T)) :
    (∀ j, j ≤ futures.length → 1 ≤ futures.length →
        (ContinuationTask.fireLog futures.length j).count true
          = if j = futures.length then 1 else 0)
    ∧ ((∃ e0, Outcome.err e0 ∈ futures) →
        ∃ e, ContinuationTask.computeAndSetWithTuple f futures = (Outcome.err e, 0)
          ∧ Outcome.err e ∈ futures)
    ∧ ((∀ x ∈ futures, ∃ v, x = Outcome.ok v) →
        ContinuationTask.computeAndSetWithTuple f futures
          = (Outcome.ok (f (okValues futures)), 1)) := by
  refine ⟨fun j hj hn => ContinuationTask.fireLog_count j futures.length hj hn, ?_, ?_⟩
  · rintro ⟨e0, he0⟩
    obtain ⟨e, he⟩ := whenAllGetAll_some_err futures e0 he0
    refine ⟨e, ?_, whenAllGetAll_error_mem futures e he⟩
    simp [ContinuationTask.computeAndSetWithTuple, he]
  · intro hall
    simp [ContinuationTask.computeAndSetWithTuple, whenAllGetAll_all_ok futures hall]

/-- Concrete instantiation of `whenAll_completion` with inputs [ok 20, err 7]: no
fire before both events, fire at event 2, and the result is the failing input's
error with f not invoked. -/
theorem whenAll_completion_witness :
    (ContinuationTask.fireLog 2 1).count true = 0
    ∧ ∃ e, ContinuationTask.computeAndSetWithTuple (fun vs : List Nat => vs.length)
        [Outcome.ok 20, Outcome.err 7] = (Outcome.err e, 0)
      ∧ Outcome.err e ∈ [Outcome.ok 20, Outcome.err 7] := by
  have h := whenAll_completion (fun vs : List Nat => vs.length) [Outcome.ok 20, Outcome.err 7]
  constructor
  · have h1 := h.1 1 (by decide) (by decide)
    simpa using h1
  · exact h.2.1 ⟨7, by decide⟩

/-- `StreamValue` (SingleProducerConsumerQueue.h:32-96): a variant of nullptr_t (a
moved-from slot), a regular Item, an Eof marker, or an exception_ptr. -/
inductive StreamValue (Item Eof : Type) where
  | nothing
  | item (v : Item)
  | eof (e : Eof)
  | exn (e : Err)
  deriving DecidableEq

/-- `StreamValue::isItem`. -/
def StreamValue.isItem {Item Eof : Type} : StreamValue Item Eof → Bool
  | StreamValue.item _ => true
  | _ => false

/-- `StreamValue::isEof`. -/
def StreamValue.isEof {Item Eof : Type} : StreamValue Item Eof → Bool
  | StreamValue.eof _ => true
  | _ => false

/-- `StreamValue::isException`. -/
def StreamValue.isException {Item Eof : Type} : StreamValue Item Eof → Bool
  | StreamValue.exn _ => true
  | _ => false

/-- An End or Error marker (shorthand used by the theorems). -/
def StreamValue.isMarker {Item Eof : Type} (v : StreamValue Item Eof) : Bool :=
  v.isEof || v.isException

/-- `StreamValue::makeFrom` (SingleProducerConsumerQueue.h:47-62): move an item out
of the source (leaving it empty), copy an Eof or exception marker.  Returns the
made value together with what the source becomes. -/
def StreamValue.makeFrom {Item Eof : Type} :
    StreamValue Item Eof → StreamValue Item Eof × StreamValue Item Eof
  | StreamValue.item v => (StreamValue.item v, StreamValue.nothing)
  | StreamValue.eof e => (StreamValue.eof e, StreamValue.eof e)
  | StreamValue.exn e => (StreamValue.exn e, StreamValue.exn e)
  | StreamValue.nothing => (StreamValue.nothing, StreamValue.nothing)

theorem StreamValue.makeFrom_fst {Item Eof : Type} (v : StreamValue Item Eof) :
    (StreamValue.makeFrom v).1 = v := by
  cases v <;> rfl

/-- The state of `SingleProducerSingleConsumerQueue` (lines 158-313): `m_queueSize`,
`m_queue` (front first), and the two one-shot callback slots, holding callback
identities. -/
structure SingleProducerSingleConsumerQueue (Item Eof : Type) where
  queueSize : Nat
  queue : List (StreamValue Item Eof)
  valueAvailableCallback : Option Nat
  slotAvailableCallback : Option Nat
  deriving DecidableEq

/-- Result of a `dequeue` call observed as a single step: a returned value with the
new queue state; blocking on an empty queue (the call completes later, after the
producer enqueues); or the assert inside `waitForValueAvailable` firing. -/
inductive DequeueResult (Item Eof : Type) where
  | value (v : StreamValue Item Eof) (q : SingleProducerSingleConsumerQueue Item Eof)
  | blockedEmpty
  | assertFailed
  deriving DecidableEq

/-- `SingleProducerSingleConsumerQueue::dequeue` (lines 211-226).  On an empty queue
the consumer blocks via `waitForValueAvailable` (lines 277-288), which asserts
`m_valueAvailableCallback == nullptr` before installing its internal wake-up
callback.  An Item front is moved out and popped, and `onValueDequeued`
(lines 298-305) fires and clears any armed slot-available callback; an Eof or
exception front is returned as an equal copy without being popped and without
touching the callback slots. -/
def SingleProducerSingleConsumerQueue.dequeue {Item Eof : Type}
    (q : SingleProducerSingleConsumerQueue Item Eof) : DequeueResult Item Eof :=
  match q.queue with
  | [] =>
    if q.valueAvailableCallback.isSome then DequeueResult.assertFailed
    else DequeueResult.blockedEmpty
  | front :: rest =>
    if front.isItem then
      DequeueResult.value (StreamValue.makeFrom front).1
        { q with queue := rest, slotAvailableCallback := none }
    else
      DequeueResult.value (StreamValue.makeFrom front).1 q

/-- Result of an `enqueue` call observed as a single step. -/
inductive EnqueueResult (Item Eof : Type) where
  | pushed (q : SingleProducerSingleConsumerQueue Item Eof)
  | blockedFull
  | assertFailed
  deriving DecidableEq

/-- `SingleProducerSingleConsumerQueue::enqueue` (lines 254-274).  If the queue is
full and the value is an Item, the producer asserts `m_slotAvailableCallback ==
nullptr`, installs an internal wake-up callback and blocks until a dequeue.
Otherwise — in particular always for Eof and exception markers, even on a full
queue — the value is pushed and `onValueEnqueued` (lines 290-297) fires and clears
any armed value-available callback. -/
def SingleProducerSingleConsumerQueue.enqueue {Item Eof : Type}
    (q : SingleProducerSingleConsumerQueue Item Eof) (v : StreamValue Item Eof) :
    EnqueueResult Item Eof :=
  if q.queueSize ≤ q.queue.length ∧ v.isItem then
    if q.slotAvailableCallback.isSome then EnqueueResult.assertFailed
    else EnqueueResult.blockedFull
  else
    EnqueueResult.pushed
      { q with queue := q.queue ++ [v], valueAvailableCallback := none }

/-- `setOnValueAvailableOnceCallback` (lines 199-207): if the queue is empty, store
the callback — overwriting any previously armed one, with no assertion — otherwise
unlock and run it inline (second component true = it ran on the caller's thread
before the call returned). -/
def SingleProducerSingleConsumerQueue.setOnValueAvailableOnceCallback {Item Eof : Type}
    (q : SingleProducerSingleConsumerQueue Item Eof) (cb : Nat) :
    SingleProducerSingleConsumerQueue Item Eof × Bool :=
  if q.queue.isEmpty then ({ q with valueAvailableCallback := some cb }, false)
  else (q, true)

/-- `setOnSlotAvailableOnceCallback` (lines 242-250): if the queue is full, store
the callback — overwriting any previously armed one, with no assertion — otherwise
unlock and run it inline. -/
def SingleProducerSingleConsumerQueue.setOnSlotAvailableOnceCallback {Item Eof : Type}
    (q : SingleProducerSingleConsumerQueue Item Eof) (cb : Nat) :
    SingleProducerSingleConsumerQueue Item Eof × Bool :=
  if q.queueSize ≤ q.queue.length then ({ q with slotAvailableCallback := some cb }, false)
  else (q, true)

/-- A producer or consumer operation on the channel. -/
inductive QOp (Item Eof : Type) where
  | enq (v : StreamValue Item Eof)
  | deq

/-- Apply one operation if it completes without blocking; `none` means it blocks at
this point of the interleaving (the single blocked party retries after the other
side makes progress).  For a deq, also return the dequeued value. -/
def SingleProducerSingleConsumerQueue.applyOp {Item Eof : Type}
    (q : SingleProducerSingleConsumerQueue Item Eof) :
    QOp Item Eof →
      Option (SingleProducerSingleConsumerQueue Item Eof × Option (StreamValue Item Eof))
  | QOp.enq v =>
    match q.enqueue v with
    | EnqueueResult.pushed q2 => some (q2, none)
    | EnqueueResult.blockedFull => none
    | EnqueueResult.assertFailed => none
  | QOp.deq =>
    match q.dequeue with
    | DequeueResult.value v q2 => some (q2, some v)
    | DequeueResult.blockedEmpty => none
    | DequeueResult.assertFailed => none

/-- Run an interleaved trace of operations; `some` iff every operation completed;
returns the final state and the dequeued values in order. -/
def SingleProducerSingleConsumerQueue.runTrace {Item Eof : Type} :
    SingleProducerSingleConsumerQueue Item Eof → List (QOp Item Eof) →
      Option (SingleProducerSingleConsumerQueue Item Eof × List (StreamValue Item Eof))
  | q, [] => some (q, [])
  | q, op :: rest =>
    match q.applyOp op with
    | none => none
    | some (q2, out) =>
      match SingleProducerSingleConsumerQueue.runTrace q2 rest with
      | none => none
      | some (qf, outs) => some (qf, out.toList ++ outs)

/-- The stream values a trace enqueues, in order. -/
def enqueuedOf {Item Eof : Type} : List (QOp Item Eof) → List (StreamValue Item Eof)
  | [] => []
  | QOp.enq v :: rest => v :: enqueuedOf rest
  | QOp.deq :: rest => enqueuedOf rest

/-- A fresh channel of capacity `cap` (constructor, lines 161-165). -/
def emptyQueue (Item Eof : Type) (cap : Nat) : SingleProducerSingleConsumerQueue Item Eof :=
  ⟨cap, [], none, none⟩

theorem StreamValue.isMarker_not_isItem {Item Eof : Type} (v : StreamValue Item Eof)
    (h : v.isMarker = true) : v.isItem = false := by
  cases v <;> simp_all [StreamValue.isMarker, StreamValue.isEof, StreamValue.isException,
    StreamValue.isItem]

theorem SingleProducerSingleConsumerQueue.enqueue_pushed_shape {Item Eof : Type}
    (q q2 : SingleProducerSingleConsumerQueue Item Eof) (v : StreamValue Item Eof)
    (h : q.enqueue v = EnqueueResult.pushed q2) :
    q2 = { q with queue := q.queue ++ [v], valueAvailableCallback := none }
      ∧ (v.isItem = true → q.queue.length < q.queueSize) := by
  unfold SingleProducerSingleConsumerQueue.enqueue at h
  by_cases hc : q.queueSize ≤ q.queue.length ∧ v.isItem
  · rw [if_pos hc] at h
    by_cases hs : q.slotAvailableCallback.isSome = true <;> simp [hs] at h
  · rw [if_neg hc] at h
    injection h with h2
    refine ⟨h2.symm, fun hv => ?_⟩
    by_contra hlen
    exact hc ⟨by omega, hv⟩

theorem SingleProducerSingleConsumerQueue.dequeue_value_shape {Item Eof : Type}
    (q q2 : SingleProducerSingleConsumerQueue Item Eof) (v : StreamValue Item Eof)
    (h : q.dequeue = DequeueResult.value v q2) :
    ∃ front rest, q.queue = front :: rest ∧ v = front ∧
      ((front.isItem = true
          ∧ q2 = { q with queue := rest, slotAvailableCallback := none })
        ∨ (front.isItem = false ∧ q2 = q)) := by
  cases hq : q.queue with
  | nil =>
    simp only [SingleProducerSingleConsumerQueue.dequeue, hq] at h
    by_cases hv : q.valueAvailableCallback.isSome = true <;> simp [hv] at h
  | cons front rest =>
    simp only [SingleProducerSingleConsumerQueue.dequeue, hq] at h
    by_cases hf : front.isItem = true
    · rw [if_pos hf] at h
      injection h with h1 h2
      exact ⟨front, rest, rfl, by rw [← h1, StreamValue.makeFrom_fst],
        Or.inl ⟨hf, h2.symm⟩⟩
    · rw [if_neg hf] at h
      injection h with h1 h2
      exact ⟨front, rest, rfl, by rw [← h1, StreamValue.makeFrom_fst],
        Or.inr ⟨by simpa using hf, h2.symm⟩⟩

theorem SingleProducerSingleConsumerQueue.applyOp_enq_inv {Item Eof : Type}
    (q q2 : SingleProducerSingleConsumerQueue Item Eof) (v : StreamValue Item Eof)
    (out : Option (StreamValue Item Eof))
    (h : q.applyOp (QOp.enq v) = some (q2, out)) :
    q.enqueue v = EnqueueResult.pushed q2 ∧ out = none := by
  cases henq : q.enqueue v with
  | pushed q3 =>
    simp only [SingleProducerSingleConsumerQueue.applyOp, henq, Option.some.injEq,
      Prod.mk.injEq] at h
    exact ⟨by rw [h.1], h.2.symm⟩
  | blockedFull => simp [SingleProducerSingleConsumerQueue.applyOp, henq] at h
  | assertFailed => simp [SingleProducerSingleConsumerQueue.applyOp, henq] at h

theorem SingleProducerSingleConsumerQueue.applyOp_deq_inv {Item Eof : Type}
    (q q2 : SingleProducerSingleConsumerQueue Item Eof)
    (out : Option (StreamValue Item Eof))
    (h : q.applyOp QOp.deq = some (q2, out)) :
    ∃ v, q.dequeue = DequeueResult.value v q2 ∧ out = some v := by
  cases hdeq : q.dequeue with
  | value v q3 =>
    simp only [SingleProducerSingleConsumerQueue.applyOp, hdeq, Option.some.injEq,
      Prod.mk.injEq] at h
    exact ⟨v, by rw [h.1], h.2.symm⟩
  | blockedEmpty => simp [SingleProducerSingleConsumerQueue.applyOp, hdeq] at h
  | assertFailed => simp [SingleProducerSingleConsumerQueue.applyOp, hdeq] at h

theorem SingleProducerSingleConsumerQueue.runTrace_cons_inv {Item Eof : Type}
    (q qf : SingleProducerSingleConsumerQueue Item Eof) (op : QOp Item Eof)
    (rest : List (QOp Item Eof)) (outs : List (StreamValue Item Eof))
    (h : q.runTrace (op :: rest) = some (qf, outs)) :
    ∃ q2 out outs2, q.applyOp op = some (q2, out)
      ∧ SingleProducerSingleConsumerQueue.runTrace q2 rest = some (qf, outs2)
      ∧ outs = out.toList ++ outs2 := by
  cases hap : q.applyOp op with
  | none => simp [SingleProducerSingleConsumerQueue.runTrace, hap] at h
  | some s =>
    obtain ⟨q2, out⟩ := s
    cases hrt : SingleProducerSingleConsumerQueue.runTrace q2 rest with
    | none => simp [SingleProducerSingleConsumerQueue.runTrace, hap, hrt] at h
    | some r =>
      obtain ⟨q3, outs2⟩ := r
      simp only [SingleProducerSingleConsumerQueue.runTrace, hap, hrt,
        Option.some.injEq, Prod.mk.injEq] at h
      exact ⟨q2, out, outs2, rfl, by rw [hrt, h.1], h.2.symm⟩

theorem SingleProducerSingleConsumerQueue.runTrace_fifo {Item Eof : Type} :
    ∀ (t : List (QOp Item Eof)) (q qf : SingleProducerSingleConsumerQueue Item Eof)
      (outs : List (StreamValue Item Eof)),
      SingleProducerSingleConsumerQueue.runTrace q t = some (qf, outs) →
      q.queue ++ enqueuedOf t = outs.filter StreamValue.isItem ++ qf.queue
        ∧ qf.queueSize = q.queueSize := by
  intro t
  induction t with
  | nil =>
    intro q qf outs h
    simp only [SingleProducerSingleConsumerQueue.runTrace, Option.some.injEq,
      Prod.mk.injEq] at h
    obtain ⟨h1, h2⟩ := h
    subst h1
    subst h2
    simp [enqueuedOf]
  | cons op rest ih =>
    intro q qf outs h
    obtain ⟨q2, out, outs2, hap, hrt, houts⟩ :=
      SingleProducerSingleConsumerQueue.runTrace_cons_inv q qf op rest outs h
    cases op with
    | enq v =>
      obtain ⟨henq, hout⟩ :=
        SingleProducerSingleConsumerQueue.applyOp_enq_inv q q2 v out hap
      obtain ⟨hsh, -⟩ :=
        SingleProducerSingleConsumerQueue.enqueue_pushed_shape q q2 v henq
      obtain ⟨hinv, hsz⟩ := ih q2 qf outs2 hrt
      subst hout
      subst houts
      rw [hsh] at hinv hsz
      simp only at hinv hsz
      refine ⟨?_, hsz⟩
      simp only [enqueuedOf, Option.toList, List.nil_append]
      rw [← hinv]
      simp
    | deq =>
      obtain ⟨v, hdeq, hout⟩ :=
        SingleProducerSingleConsumerQueue.applyOp_deq_inv q q2 out hap
      obtain ⟨front, tail, hq, hv, hcase⟩ :=
        SingleProducerSingleConsumerQueue.dequeue_value_shape q q2 v hdeq
      obtain ⟨hinv, hsz⟩ := ih q2 qf outs2 hrt
      subst hout
      subst houts
      subst hv
      cases hcase with
      | inl hitem =>
        obtain ⟨hfi, hsh⟩ := hitem
        rw [hsh] at hinv hsz
        simp only at hinv hsz
        refine ⟨?_, hsz⟩
        have hgoal : q.queue ++ enqueuedOf (QOp.deq :: rest)
            = v :: (tail ++ enqueuedOf rest) := by
          rw [hq]
          simp [enqueuedOf]
        rw [hgoal, hinv]
        simp [List.filter_cons, hfi]
      | inr hmark =>
        obtain ⟨hfi, hsh⟩ := hmark
        subst hsh
        refine ⟨?_, hsz⟩
        have hgoal : enqueuedOf (QOp.deq :: rest) = enqueuedOf rest := by
          simp [enqueuedOf]
        rw [hgoal, hinv]
        simp [List.filter_cons, hfi]

theorem SingleProducerSingleConsumerQueue.runTrace_marker_front {Item Eof : Type} :
    ∀ (t : List (QOp Item Eof)) (q qf : SingleProducerSingleConsumerQueue Item Eof)
      (outs : List (StreamValue Item Eof)) (m : StreamValue Item Eof),
      SingleProducerSingleConsumerQueue.runTrace q t = some (qf, outs) →
      q.queue.head? = some m → m.isMarker = true →
      (∀ x ∈ outs, x = m) ∧ qf.queue.head? = some m := by
  intro t
  induction t with
  | nil =>
    intro q qf outs m h hhead hm
    simp only [SingleProducerSingleConsumerQueue.runTrace, Option.some.injEq,
      Prod.mk.injEq] at h
    obtain ⟨h1, h2⟩ := h
    subst h1
    subst h2
    exact ⟨by simp, hhead⟩
  | cons op rest ih =>
    intro q qf outs m h hhead hm
    obtain ⟨q2, out, outs2, hap, hrt, houts⟩ :=
      SingleProducerSingleConsumerQueue.runTrace_cons_inv q qf op rest outs h
    cases op with
    | enq v =>
      obtain ⟨henq, hout⟩ :=
        SingleProducerSingleConsumerQueue.applyOp_enq_inv q q2 v out hap
      obtain ⟨hsh, -⟩ :=
        SingleProducerSingleConsumerQueue.enqueue_pushed_shape q q2 v henq
      have houts2 : outs = outs2 := by rw [houts, hout]; simp
      have hhead2 : q2.queue.head? = some m := by
        rw [hsh]
        simp only
        cases hqq : q.queue with
        | nil => rw [hqq] at hhead; simp at hhead
        | cons a l =>
          rw [hqq] at hhead
          simp only [List.head?_cons, Option.some.injEq] at hhead
          simp [hqq, hhead]
      obtain ⟨hall, hf⟩ := ih q2 qf outs2 m hrt hhead2 hm
      rw [houts2]
      exact ⟨hall, hf⟩
    | deq =>
      obtain ⟨v, hdeq, hout⟩ :=
        SingleProducerSingleConsumerQueue.applyOp_deq_inv q q2 out hap
      obtain ⟨front, tail, hq, hv, hcase⟩ :=
        SingleProducerSingleConsumerQueue.dequeue_value_shape q q2 v hdeq
      have houts2 : outs = v :: outs2 := by rw [houts, hout]; simp
      have hvm : v = m := by
        rw [hq] at hhead
        simp only [List.head?_cons, Option.some.injEq] at hhead
        rw [hv, hhead]
      cases hcase with
      | inl hitem =>
        have hfalse : front.isItem = false := by
          rw [← hv, hvm]
          exact StreamValue.isMarker_not_isItem m hm
        rw [hfalse] at hitem
        exact absurd hitem.1 (by simp)
      | inr hmark =>
        obtain ⟨hfi, hsh⟩ := hmark
        have hhead2 : q2.queue.head? = some m := by
          rw [hsh, hq, ← hv, hvm]
          simp
        obtain ⟨hall, hf⟩ := ih q2 qf outs2 m hrt hhead2 hm
        refine ⟨?_, hf⟩
        rw [houts2]
        intro x hx
        cases List.mem_cons.mp hx with
        | inl hx0 => rw [hx0, hvm]
        | inr hx1 => exact hall x hx1

theorem SingleProducerSingleConsumerQueue.runTrace_closed {Item Eof : Type} :
    ∀ (t : List (QOp Item Eof)) (q qf : SingleProducerSingleConsumerQueue Item Eof)
      (outs : List (StreamValue Item Eof)),
      SingleProducerSingleConsumerQueue.runTrace q t = some (qf, outs) →
      ∀ j m, outs[j]? = some m → m.isMarker = true →
        ∀ i, j ≤ i → i < outs.length → outs[i]? = some m := by
  intro t
  induction t with
  | nil =>
    intro q qf outs h j m hj hm i hji hi
    simp only [SingleProducerSingleConsumerQueue.runTrace, Option.some.injEq,
      Prod.mk.injEq] at h
    obtain ⟨-, h2⟩ := h
    subst h2
    simp at hj
  | cons op rest ih =>
    intro q qf outs h j m hj hm i hji hi
    obtain ⟨q2, out, outs2, hap, hrt, houts⟩ :=
      SingleProducerSingleConsumerQueue.runTrace_cons_inv q qf op rest outs h
    cases op with
    | enq v =>
      obtain ⟨henq, hout⟩ :=
        SingleProducerSingleConsumerQueue.applyOp_enq_inv q q2 v out hap
      have houts2 : outs = outs2 := by rw [houts, hout]; simp
      rw [houts2] at hj hi ⊢
      exact ih q2 qf outs2 hrt j m hj hm i hji hi
    | deq =>
      obtain ⟨v, hdeq, hout⟩ :=
        SingleProducerSingleConsumerQueue.applyOp_deq_inv q q2 out hap
      obtain ⟨front, tail, hq, hv, hcase⟩ :=
        SingleProducerSingleConsumerQueue.dequeue_value_shape q q2 v hdeq
      have houts2 : outs = v :: outs2 := by rw [houts, hout]; simp
      rw [houts2] at hj hi ⊢
      cases j with
      | zero =>
        simp only [List.getElem?_cons_zero, Option.some.injEq] at hj
        cases hcase with
        | inl hitem =>
          have hfalse : v.isItem = false := by
            rw [hj]
            exact StreamValue.isMarker_not_isItem m hm
          rw [hv] at hfalse
          rw [hfalse] at hitem
          exact absurd hitem.1 (by simp)
        | inr hmark =>
          obtain ⟨-, hsh⟩ := hmark
          have hhead2 : q2.queue.head? = some m := by
            rw [hsh, hq, ← hv, hj]
            simp
          obtain ⟨hall, -⟩ :=
            SingleProducerSingleConsumerQueue.runTrace_marker_front rest q2 qf outs2 m
              hrt hhead2 hm
          cases i with
          | zero => simp [hj]
          | succ i2 =>
            simp only [List.getElem?_cons_succ]
            simp only [List.length_cons, Nat.succ_lt_succ_iff] at hi
            rw [List.getElem?_eq_getElem hi]
            exact congrArg some (hall _ (List.getElem_mem hi))
      | succ j2 =>
        cases i with
        | zero => omega
        | succ i2 =>
          simp only [List.getElem?_cons_succ] at hj ⊢
          simp only [List.length_cons, Nat.succ_lt_succ_iff] at hi
          exact ih q2 qf outs2 hrt j2 m hj hm i2 (by omega) hi

/-- Claim C3: for every valid single-producer/single-consumer interleaving on a
fresh channel, (1) the values enqueued so far are exactly the items dequeued so far,
in order, followed by the current queue content — so items are dequeued in exactly
enqueue order; (2) whenever a dequeue observes an End or Error marker, every item
enqueued before the marker has already been dequeued, in order; (3) from the first
dequeued marker on, every subsequent dequeue returns an equal copy of that same
marker (the channel is permanently closed and the marker is not consumed). -/
theorem stream_ordering_closed {Item Eof : Type} (cap : Nat) (t : List (QOp Item Eof))
    (qf : SingleProducerSingleConsumerQueue Item Eof) (outs : List (StreamValue Item Eof))
    (hrun : (emptyQueue Item Eof cap).runTrace t = some (qf, outs)) :
    enqueuedOf t = outs.filter StreamValue.isItem ++ qf.queue
    ∧ (∀ (t1 : List (QOp Item Eof)) q1 outs1 (v : StreamValue Item Eof) q2,
        (emptyQueue Item Eof cap).runTrace t1 = some (q1, outs1) →
        q1.dequeue = DequeueResult.value v q2 → v.isMarker = true →
        ∃ post, enqueuedOf t1 = outs1.filter StreamValue.isItem ++ v :: post)
    ∧ (∀ j m, outs[j]? = some m → m.isMarker = true →
        ∀ i, j ≤ i → i < outs.length → outs[i]? = some m) := by
  refine ⟨?_, ?_, ?_⟩
  · have h := SingleProducerSingleConsumerQueue.runTrace_fifo t (emptyQueue Item Eof cap)
      qf outs hrun
    simpa [emptyQueue] using h.1
  · intro t1 q1 outs1 v q2 hrun1 hdeq hm
    have h := SingleProducerSingleConsumerQueue.runTrace_fifo t1 (emptyQueue Item Eof cap)
      q1 outs1 hrun1
    obtain ⟨front, tail, hq, hv, -⟩ :=
      SingleProducerSingleConsumerQueue.dequeue_value_shape q1 q2 v hdeq
    refine ⟨tail, ?_⟩
    have h1 := h.1
    simp only [emptyQueue, List.nil_append] at h1
    rw [h1, hq, hv]
  · exact SingleProducerSingleConsumerQueue.runTrace_closed t (emptyQueue Item Eof cap)
      qf outs hrun

/-- Concrete instantiation of `stream_ordering_closed` on the trace
enq(item 1); deq; enq(End); deq; deq with capacity 1: the enqueue history equals the
dequeued items followed by the final queue content, and from output index 1 on every
dequeue returns the same End marker. -/
theorem stream_ordering_closed_witness :
    enqueuedOf [QOp.enq (StreamValue.item 1), QOp.deq,
        QOp.enq (StreamValue.eof 0), QOp.deq, QOp.deq]
      = ([StreamValue.item 1, StreamValue.eof 0, StreamValue.eof 0] :
          List (StreamValue Nat Nat)).filter StreamValue.isItem ++ [StreamValue.eof 0]
    ∧ ([StreamValue.item 1, StreamValue.eof 0, StreamValue.eof 0] :
        List (StreamValue Nat Nat))[2]? = some (StreamValue.eof 0) := by
  have hrun : (emptyQueue Nat Nat 1).runTrace
      [QOp.enq (StreamValue.item 1), QOp.deq,
        QOp.enq (StreamValue.eof 0), QOp.deq, QOp.deq]
      = some (⟨1, [StreamValue.eof 0], none, none⟩,
          [StreamValue.item 1, StreamValue.eof 0, StreamValue.eof 0]) := by decide
  have h := stream_ordering_closed 1
    [QOp.enq (StreamValue.item 1), QOp.deq, QOp.enq (StreamValue.eof 0), QOp.deq, QOp.deq]
    ⟨1, [StreamValue.eof 0], none, none⟩
    [StreamValue.item 1, StreamValue.eof 0, StreamValue.eof 0] hrun
  exact ⟨h.1, h.2.2 1 (StreamValue.eof 0) (by decide) (by decide) 2 (by decide) (by decide)⟩


/-- Number of Items (excluding End/Error markers) currently buffered. -/
def countItems {Item Eof : Type} (l : List (StreamValue Item Eof)) : Nat :=
  (l.filter StreamValue.isItem).length

theorem countItems_le_length {Item Eof : Type} (l : List (StreamValue Item Eof)) :
    countItems l ≤ l.length :=
  List.length_filter_le _ _

theorem SingleProducerSingleConsumerQueue.runTrace_countItems {Item Eof : Type} :
    ∀ (t : List (QOp Item Eof)) (q qf : SingleProducerSingleConsumerQueue Item Eof)
      (outs : List (StreamValue Item Eof)),
      SingleProducerSingleConsumerQueue.runTrace q t = some (qf, outs) →
      countItems q.queue ≤ q.queueSize →
      countItems qf.queue ≤ q.queueSize := by
  intro t
  induction t with
  | nil =>
    intro q qf outs h hinit
    simp only [SingleProducerSingleConsumerQueue.runTrace, Option.some.injEq,
      Prod.mk.injEq] at h
    obtain ⟨h1, -⟩ := h
    subst h1
    exact hinit
  | cons op rest ih =>
    intro q qf outs h hinit
    obtain ⟨q2, out, outs2, hap, hrt, houts⟩ :=
      SingleProducerSingleConsumerQueue.runTrace_cons_inv q qf op rest outs h
    cases op with
    | enq v =>
      obtain ⟨henq, -⟩ :=
        SingleProducerSingleConsumerQueue.applyOp_enq_inv q q2 v out hap
      obtain ⟨hsh, hlen⟩ :=
        SingleProducerSingleConsumerQueue.enqueue_pushed_shape q q2 v henq
      have hsz : q2.queueSize = q.queueSize := by rw [hsh]
      have hbound : countItems q2.queue ≤ q2.queueSize := by
        rw [hsh]
        simp only
        by_cases hv : v.isItem = true
        · have hl := hlen hv
          have : countItems (q.queue ++ [v]) = countItems q.queue + 1 := by
            simp [countItems, List.filter_append, hv]
          rw [this]
          have := countItems_le_length q.queue
          omega
        · have : countItems (q.queue ++ [v]) = countItems q.queue := by
            have hv2 : v.isItem = false := by
              cases hvv : v.isItem
              · rfl
              · exact absurd hvv hv
            simp [countItems, List.filter_append, hv2]
          rw [this]
          exact hinit
      have := ih q2 qf outs2 hrt hbound
      rwa [hsz] at this
    | deq =>
      obtain ⟨v, hdeq, -⟩ :=
        SingleProducerSingleConsumerQueue.applyOp_deq_inv q q2 out hap
      obtain ⟨front, tail, hq, hv, hcase⟩ :=
        SingleProducerSingleConsumerQueue.dequeue_value_shape q q2 v hdeq
      cases hcase with
      | inl hitem =>
        obtain ⟨hfi, hsh⟩ := hitem
        have hsz : q2.queueSize = q.queueSize := by rw [hsh]
        have hbound : countItems q2.queue ≤ q2.queueSize := by
          rw [hsh]
          simp only
          have h1 : countItems (front :: tail) = countItems tail + 1 := by
            simp [countItems, List.filter_cons, hfi]
          rw [hq, h1] at hinit
          omega
        have := ih q2 qf outs2 hrt hbound
        rwa [hsz] at this
      | inr hmark =>
        obtain ⟨-, hsh⟩ := hmark
        rw [hsh] at hrt
        exact ih q qf outs2 hrt hinit

theorem SingleProducerSingleConsumerQueue.runTrace_marker_mem {Item Eof : Type} :
    ∀ (t : List (QOp Item Eof)) (q qf : SingleProducerSingleConsumerQueue Item Eof)
      (outs : List (StreamValue Item Eof)) (m : StreamValue Item Eof),
      SingleProducerSingleConsumerQueue.runTrace q t = some (qf, outs) →
      m.isMarker = true → m ∈ q.queue → m ∈ qf.queue := by
  intro t
  induction t with
  | nil =>
    intro q qf outs m h hm hmem
    simp only [SingleProducerSingleConsumerQueue.runTrace, Option.some.injEq,
      Prod.mk.injEq] at h
    obtain ⟨h1, -⟩ := h
    subst h1
    exact hmem
  | cons op rest ih =>
    intro q qf outs m h hm hmem
    obtain ⟨q2, out, outs2, hap, hrt, houts⟩ :=
      SingleProducerSingleConsumerQueue.runTrace_cons_inv q qf op rest outs h
    cases op with
    | enq v =>
      obtain ⟨henq, -⟩ :=
        SingleProducerSingleConsumerQueue.applyOp_enq_inv q q2 v out hap
      obtain ⟨hsh, -⟩ :=
        SingleProducerSingleConsumerQueue.enqueue_pushed_shape q q2 v henq
      refine ih q2 qf outs2 m hrt hm ?_
      rw [hsh]
      simp only
      exact List.mem_append_left _ hmem
    | deq =>
      obtain ⟨v, hdeq, -⟩ :=
        SingleProducerSingleConsumerQueue.applyOp_deq_inv q q2 out hap
      obtain ⟨front, tail, hq, hv, hcase⟩ :=
        SingleProducerSingleConsumerQueue.dequeue_value_shape q q2 v hdeq
      cases hcase with
      | inl hitem =>
        obtain ⟨hfi, hsh⟩ := hitem
        refine ih q2 qf outs2 m hrt hm ?_
        rw [hsh]
        simp only
        rw [hq] at hmem
        cases List.mem_cons.mp hmem with
        | inl h0 =>
          rw [h0] at hm
          rw [StreamValue.isMarker_not_isItem front hm] at hfi
          exact absurd hfi (by simp)
        | inr h1 => exact h1
      | inr hmark =>
        obtain ⟨-, hsh⟩ := hmark
        rw [hsh] at hrt
        exact ih q qf outs2 m hrt hm hmem

/-- Claim C4: for a channel of capacity k, (1) at every reachable state at most k
Items are buffered; (2) an enqueue of an Item when k Items are buffered does not
push — it blocks (or hits the armed-callback assert); (3) if the queue holds
exactly k entries with an Item at the front, one consumer dequeue removes that
Item, after which the blocked enqueue succeeds; (4) an enqueue of an End or Error
marker always pushes immediately, even on a full queue; (5) once the channel
contains a marker, no later operation ever removes it (the channel is closed). -/
theorem stream_backpressure {Item Eof : Type} (cap : Nat) :
    (∀ (t : List (QOp Item Eof)) qf outs,
        (emptyQueue Item Eof cap).runTrace t = some (qf, outs) →
        countItems qf.queue ≤ cap)
    ∧ (∀ (q : SingleProducerSingleConsumerQueue Item Eof) (v : StreamValue Item Eof),
        v.isItem = true → countItems q.queue = q.queueSize →
        q.enqueue v = EnqueueResult.blockedFull ∨ q.enqueue v = EnqueueResult.assertFailed)
    ∧ (∀ (q : SingleProducerSingleConsumerQueue Item Eof) (v : StreamValue Item Eof)
        (w : Item) (tail : List (StreamValue Item Eof)),
        v.isItem = true → q.queue = StreamValue.item w :: tail →
        q.queue.length = q.queueSize →
        ∃ q3, q.dequeue = DequeueResult.value (StreamValue.item w)
            { q with queue := tail, slotAvailableCallback := none }
          ∧ SingleProducerSingleConsumerQueue.enqueue
              { q with queue := tail, slotAvailableCallback := none } v
              = EnqueueResult.pushed q3)
    ∧ (∀ (q : SingleProducerSingleConsumerQueue Item Eof) (v : StreamValue Item Eof),
        v.isMarker = true →
        q.enqueue v = EnqueueResult.pushed
          { q with queue := q.queue ++ [v], valueAvailableCallback := none })
    ∧ (∀ (t : List (QOp Item Eof)) (q qf : SingleProducerSingleConsumerQueue Item Eof)
        outs (m : StreamValue Item Eof),
        SingleProducerSingleConsumerQueue.runTrace q t = some (qf, outs) →
        m.isMarker = true → m ∈ q.queue → m ∈ qf.queue) := by
  refine ⟨?_, ?_, ?_, ?_, ?_⟩
  · intro t qf outs hrun
    have h := SingleProducerSingleConsumerQueue.runTrace_countItems t
      (emptyQueue Item Eof cap) qf outs hrun (by simp [emptyQueue, countItems])
    simpa [emptyQueue] using h
  · intro q v hv hcount
    have hlen : q.queueSize ≤ q.queue.length := by
      have := countItems_le_length q.queue
      omega
    unfold SingleProducerSingleConsumerQueue.enqueue
    rw [if_pos ⟨hlen, hv⟩]
    by_cases hs : q.slotAvailableCallback.isSome = true
    · rw [if_pos hs]
      exact Or.inr rfl
    · rw [if_neg hs]
      exact Or.inl rfl
  · intro q v w tail hv hq hlen
    have hdeq : q.dequeue = DequeueResult.value (StreamValue.item w)
        { q with queue := tail, slotAvailableCallback := none } := by
      simp only [SingleProducerSingleConsumerQueue.dequeue, hq]
      rw [if_pos (by simp [StreamValue.isItem])]
      rfl
    have hlt : tail.length < q.queueSize := by
      rw [hq] at hlen
      simp only [List.length_cons] at hlen
      omega
    refine ⟨{ q with queue := tail ++ [v], valueAvailableCallback := none, slotAvailableCallback := none }, hdeq, ?_⟩
    unfold SingleProducerSingleConsumerQueue.enqueue
    rw [if_neg (fun hcontra => absurd hcontra.1 (by simp only at hcontra ⊢; omega))]
  · intro q v hm
    unfold SingleProducerSingleConsumerQueue.enqueue
    rw [if_neg ?_]
    intro hcontra
    rw [StreamValue.isMarker_not_isItem v hm] at hcontra
    exact absurd hcontra.2 (by simp)
  · exact SingleProducerSingleConsumerQueue.runTrace_marker_mem

/-- Concrete instantiation of `stream_backpressure`: on a full capacity-1 queue an
item enqueue does not push, while an End marker pushes immediately. -/
theorem stream_backpressure_witness :
    (SingleProducerSingleConsumerQueue.enqueue
        (⟨1, [StreamValue.item 5], none, none⟩ : SingleProducerSingleConsumerQueue Nat Nat)
        (StreamValue.item 6)
      = EnqueueResult.blockedFull
      ∨ SingleProducerSingleConsumerQueue.enqueue
          (⟨1, [StreamValue.item 5], none, none⟩ : SingleProducerSingleConsumerQueue Nat Nat)
          (StreamValue.item 6)
        = EnqueueResult.assertFailed)
    ∧ SingleProducerSingleConsumerQueue.enqueue
        (⟨1, [StreamValue.item 5], none, none⟩ : SingleProducerSingleConsumerQueue Nat Nat)
        (StreamValue.eof 0)
      = EnqueueResult.pushed ⟨1, [StreamValue.item 5, StreamValue.eof 0], none, none⟩ := by
  have h := @stream_backpressure Nat Nat 1
  exact ⟨h.2.1 ⟨1, [StreamValue.item 5], none, none⟩ (StreamValue.item 6) (by decide)
      (by decide),
    h.2.2.2.1 ⟨1, [StreamValue.item 5], none, none⟩ (StreamValue.eof 0) (by decide)⟩



/-- Claim C8, counterexample at concrete inputs.  Completing an already-completed
cell runs no assertion: `notify` (Future.cpp:13-22) contains no check and simply
overwrites the state, so the second completion is accepted (see
`PromiseFuturePairBase.notify`, whose embedding is total because the source path
has no assert).  Likewise `setOnValueAvailableOnceCallback`
(SingleProducerConsumerQueue.h:199-207) on an empty queue with callback 7 already
armed silently replaces it with 8 and returns normally — no assertion fires,
although the condition (a value being available) does not hold. -/
theorem contract_violations_not_asserted :
    (PromiseFuturePairBase.notify
        (PromiseFuturePairBase.notify ⟨State.not_completed, []⟩ State.completed_normally).1
        State.exception).1
      = ⟨State.exception, []⟩
    ∧ SingleProducerSingleConsumerQueue.setOnValueAvailableOnceCallback
        (⟨1, [], some 7, none⟩ : SingleProducerSingleConsumerQueue Nat Nat) 8
      = (⟨1, [], some 8, none⟩, false) :=
  ⟨rfl, rfl⟩

/-- Claim C8 as amended: completing a promise a second time is not detected — the
state transition unconditionally overwrites the previous state, with no assertion;
installing a one-shot value-available or slot-available callback while one of the
same kind is armed and the condition does not hold silently replaces the armed
callback; the assertion failures instead guard the internal blocking paths: a
dequeue that must block asserts that no value-available callback is armed
(SingleProducerConsumerQueue.h:280), and an enqueue of an Item that must block
asserts that no slot-available callback is armed (line 260). -/
theorem contract_violation_assertions {Item Eof : Type} (cb cb2 : Nat)
    (q : SingleProducerSingleConsumerQueue Item Eof) (v : StreamValue Item Eof) :
    (∀ (c : PromiseFuturePairBase) (st : State), (c.notify st).1 = ⟨st, []⟩)
    ∧ (q.queue = [] → q.valueAvailableCallback = some cb →
        q.dequeue = DequeueResult.assertFailed)
    ∧ (v.isItem = true → q.queueSize ≤ q.queue.length →
        q.slotAvailableCallback = some cb →
        q.enqueue v = EnqueueResult.assertFailed)
    ∧ (q.queue = [] →
        q.setOnValueAvailableOnceCallback cb2
          = ({ q with valueAvailableCallback := some cb2 }, false))
    ∧ (q.queueSize ≤ q.queue.length →
        q.setOnSlotAvailableOnceCallback cb2
          = ({ q with slotAvailableCallback := some cb2 }, false)) := by
  refine ⟨fun c st => rfl, ?_, ?_, ?_, ?_⟩
  · intro hq hcb
    simp [SingleProducerSingleConsumerQueue.dequeue, hq, hcb]
  · intro hv hlen hcb
    unfold SingleProducerSingleConsumerQueue.enqueue
    rw [if_pos ⟨hlen, hv⟩, if_pos (by simp [hcb])]
  · intro hq
    simp [SingleProducerSingleConsumerQueue.setOnValueAvailableOnceCallback, hq]
  · intro hlen
    simp [SingleProducerSingleConsumerQueue.setOnSlotAvailableOnceCallback, hlen]

/-- Concrete instantiation of `contract_violation_assertions`: a blocking dequeue
on an empty queue with value-available callback 7 armed hits the assert. -/
theorem contract_violation_assertions_witness :
    SingleProducerSingleConsumerQueue.dequeue
        (⟨1, [], some 7, none⟩ : SingleProducerSingleConsumerQueue Nat Nat)
      = DequeueResult.assertFailed :=
  (contract_violation_assertions 7 8
    (⟨1, [], some 7, none⟩ : SingleProducerSingleConsumerQueue Nat Nat)
    (StreamValue.item 0)).2.1 rfl rfl

/-- `ThreadPool` (ThreadPool.h): only the data relevant to the scheduler contract. -/
structure ThreadPool where
  numThreads : Nat

/-- `ThreadPool::initSwitchThread` (returns false: any pool thread is fine). -/
def ThreadPool.initSwitchThread (_tp : ThreadPool) : Bool :=
  false

/-- `OneThreadScheduler` (Executor.h): bound to one OS thread id at construction.
Thread ids are numeric. -/
structure OneThreadScheduler where
  threadId : Nat

/-- `OneThreadScheduler::initSwitchThread` (Logger.cpp:102-104): true iff the
calling thread differs from the bound thread. -/
def OneThreadScheduler.initSwitchThread (s : OneThreadScheduler)
    (callerThreadId : Nat) : Bool :=
  decide (callerThreadId ≠ s.threadId)

/-- The `CoroutineScheduler` interface with its two concrete implementations;
`initSwitchThread` dispatches virtually and receives the calling thread id. -/
inductive CoroutineScheduler where
  | pool (tp : ThreadPool)
  | oneThread (s : OneThreadScheduler)

/-- Virtual dispatch of `initSwitchThread`. -/
def CoroutineScheduler.initSwitchThread :
    CoroutineScheduler → Nat → Bool
  | CoroutineScheduler.pool tp, _ => tp.initSwitchThread
  | CoroutineScheduler.oneThread s, caller => s.initSwitchThread caller

/-- `CoroutineStart` (CoroutineScheduler.h). -/
inductive CoroutineStart where
  | sameThread
  | parallel
  deriving DecidableEq

/-- `CoroutineSchedulingInfo`: a (scheduler, start-mode) pair. -/
structure CoroutineSchedulingInfo where
  scheduler : CoroutineScheduler
  startInfo : CoroutineStart

/-- `SwitchThreadAwaiter::await_ready` (CoroutineScheduler.h / part_007:102-104):
ready — no suspension — iff the start mode is sameThread and the scheduler does not
require a thread switch. -/
def SwitchThreadAwaiter.await_ready (info : CoroutineSchedulingInfo)
    (callerThreadId : Nat) : Bool :=
  decide (info.startInfo = CoroutineStart.sameThread)
    && !(info.scheduler.initSwitchThread callerThreadId)

/-- The awaiter protocol for a scheduling-info value: if `await_ready` is false the
coroutine suspends and `await_suspend` calls `markRunnable(handle, false)`, which
appends the handle to the scheduler's runnable queue (Logger.cpp:106-111); if ready
it continues inline on the current thread.  Returns the runnable queue and whether
the coroutine suspended. -/
def SwitchThreadAwaiter.awaitOutcome (info : CoroutineSchedulingInfo)
    (callerThreadId : Nat) (runnableHandlers : List Nat) (handle : Nat) :
    List Nat × Bool :=
  if SwitchThreadAwaiter.await_ready info callerThreadId then
    (runnableHandlers, false)
  else
    (runnableHandlers ++ [handle], true)

/-- Claim C9: the single-thread scheduler's `init_switch_thread` returns true iff
called from a thread other than the bound thread; the thread pool's always returns
false; and awaiting a scheduling-info value suspends — appending the coroutine
handle to the runnable queue — iff the start mode is parallel or
`init_switch_thread` returns true, and otherwise continues on the current thread
with the queue untouched. -/
theorem initSwitchThread_and_switch_awaiter
    (s : OneThreadScheduler) (tp : ThreadPool) (caller : Nat)
    (info : CoroutineSchedulingInfo) (runnableHandlers : List Nat) (handle : Nat) :
    (s.initSwitchThread caller = true ↔ caller ≠ s.threadId)
    ∧ tp.initSwitchThread = false
    ∧ SwitchThreadAwaiter.awaitOutcome info caller runnableHandlers handle
        = (if info.startInfo = CoroutineStart.parallel
              ∨ info.scheduler.initSwitchThread caller = true
            then (runnableHandlers ++ [handle], true)
            else (runnableHandlers, false)) := by
  refine ⟨by simp [OneThreadScheduler.initSwitchThread], rfl, ?_⟩
  unfold SwitchThreadAwaiter.awaitOutcome SwitchThreadAwaiter.await_ready
  by_cases hpar : info.startInfo = CoroutineStart.parallel
  · have hsame : ¬(info.startInfo = CoroutineStart.sameThread) := by
      rw [hpar]
      intro hcontra
      cases hcontra
    simp [hpar, hsame]
  · have hsame : info.startInfo = CoroutineStart.sameThread := by
      cases hst : info.startInfo
      · rfl
      · exact absurd hst hpar
    by_cases hsw : info.scheduler.initSwitchThread caller = true
    · simp [hsame, hsw]
    · simp [hsame, hsw, Bool.not_eq_true] at *

/-- `Obj` is a C++ object of value type T together with its identity (address):
two distinct live objects have different identities even when their values are
equal.  Copy construction produces a fresh identity with an equal value. -/
structure Obj (T : Type) where
  objId : Nat
  val : T
  deriving DecidableEq

/-- The value slot of a completed `PromiseFuturePair<T>` cell: the single stored
object `m_val`. -/
structure PromiseFuturePairCell (T : Type) where
  stored : Obj T

/-- `PromiseFuturePair<T>::get` (Future.h:107-117): waits, then returns the stored
value by non-const reference — the very same object, not a copy. -/
def PromiseFuturePairCell.get {T : Type} (c : PromiseFuturePairCell T) : Obj T :=
  c.stored

/-- `FutureAwaiter<T>::await_resume` (Future.h coroutine support, part_006:828-830):
`T await_resume() { return m_pFuture.get(); }` — the return type is `T` (not `T&`),
so returning the reference produced by `get()` copy-constructs a fresh object
(`freshId`) holding an equal value. -/
def FutureAwaiter.await_resume {T : Type} (c : PromiseFuturePairCell T)
    (freshId : Nat) : Obj T :=
  { objId := freshId, val := (PromiseFuturePairCell.get c).val }

/-- Claim C10: `get()` always returns the identical stored object (same identity on
every call), while `co_await` (via `await_resume`) returns a fresh copy: an object
with an equal value but a new identity, so distinct awaits of the same future yield
distinct value objects. -/
theorem awaitResume_copies_get_references {T : Type} (c : PromiseFuturePairCell T)
    (id1 id2 : Nat) :
    PromiseFuturePairCell.get c = c.stored
    ∧ (FutureAwaiter.await_resume c id1).val = (PromiseFuturePairCell.get c).val
    ∧ (FutureAwaiter.await_resume c id1).objId = id1
    ∧ (id1 ≠ c.stored.objId → FutureAwaiter.await_resume c id1 ≠ c.stored)
    ∧ (id1 ≠ id2 →
        FutureAwaiter.await_resume c id1 ≠ FutureAwaiter.await_resume c id2) := by
  refine ⟨rfl, rfl, rfl, ?_, ?_⟩
  · intro hne hcontra
    exact hne (congrArg Obj.objId hcontra)
  · intro hne hcontra
    exact hne (congrArg Obj.objId hcontra)

/-- Concrete instantiation of `awaitResume_copies_get_references`: two awaits with
fresh identities 1 and 2 on a cell storing object 0 produce distinct copies. -/
theorem awaitResume_copies_get_references_witness :
    FutureAwaiter.await_resume (⟨⟨0, 42⟩⟩ : PromiseFuturePairCell Nat) 1
      ≠ FutureAwaiter.await_resume (⟨⟨0, 42⟩⟩ : PromiseFuturePairCell Nat) 2 :=
  (awaitResume_copies_get_references (⟨⟨0, 42⟩⟩ : PromiseFuturePairCell Nat) 1 2).2.2.2.2
    (by decide)


end Carpal